import Mathlib

/-! local-cp-judge, `example/foo.c`

A shallow embedding of the example program `foo.c` and of the parts of the C
library it calls (`scanf`, `printf`, `strlen`, `feof`), followed by theorems
about its observable behaviour.

A `Char` stands for one C `char` of a stream or of the buffer `s`.
-/

namespace Foo

/-! ## The standard input stream -/

/-- The unread part of `stdin` together with its end-of-file indicator (what `feof` reports).
The indicator is set when a read is attempted with nothing left to read. -/
structure Stream where
  rest : List Char
  eof : Bool
deriving DecidableEq

/-- The terminator of a C string. -/
def NUL : Char := Char.ofNat 0

/-- C `isspace` in the "C" locale: space, `\t`, `\n`, `\v`, `\f`, `\r`. -/
def isSpace (c : Char) : Bool :=
  c = ' ' || c = '\t' || c = '\n' || c = Char.ofNat 11 || c = Char.ofNat 12 || c = '\r'

/-- C `isdigit`. -/
def isDigit (c : Char) : Bool :=
  decide (48 ≤ c.toNat) && decide (c.toNat ≤ 57)

/-- A white-space directive of a `scanf` format (here `" "` and `"\n"`): reads white-space
characters up to the first character that is not white space, which stays unread, or up to the
end of the input, which sets the end-of-file indicator. -/
def skipSpaceAux : List Char → Bool → Stream
  | [], _ => ⟨[], true⟩
  | c :: cs, e => if isSpace c then skipSpaceAux cs e else ⟨c :: cs, e⟩

/-- The white-space directive on a stream. -/
def skipSpace (st : Stream) : Stream :=
  skipSpaceAux st.rest st.eof

/-! ## `%d` -/

/-- The digits read by `%d`: the longest run of decimal digits. The first other character stays
unread; running into the end of the input sets the end-of-file indicator. -/
def readDigits : List Char → Bool → List Char × Stream
  | [], _ => ([], ⟨[], true⟩)
  | c :: cs, e =>
    if isDigit c then ((readDigits cs e).1.cons c, (readDigits cs e).2)
    else ([], ⟨c :: cs, e⟩)

/-- The value of a run of decimal digits, most significant first. -/
def digitsValue (ds : List Char) : Nat :=
  ds.foldl (fun acc c => acc * 10 + (c.toNat - 48)) 0

/-- Reduction to the signed 32-bit two's-complement range, `[-2^31, 2^31)`. -/
def wrap32 (z : Int) : Int :=
  (z + 2147483648) % 4294967296 - 2147483648

/-- What `strtol` returns for a value outside `long` (64 bits): the nearest bound. -/
def clampLong (z : Int) : Int :=
  if z < -9223372036854775808 then -9223372036854775808
  else if 9223372036854775807 < z then 9223372036854775807
  else z

/-- The `int` stored by `%d` for the mathematical value `z` of the digits read: the value itself
when it fits (the only case C defines); otherwise, as in glibc, the `long` result of `strtol`
truncated to 32 bits. -/
def toInt32 (z : Int) : Int :=
  wrap32 (clampLong z)

/-- The conversion `%d`: skips white space, reads an optional sign and a run of digits. The result
is `none` on an input failure (end of input before any character of the number) and on a matching
failure (no digit); the sign, once read, stays consumed. -/
def scanInt (st : Stream) : Option Int × Stream :=
  match skipSpace st with
  | ⟨[], e⟩ => (none, ⟨[], e⟩)
  | ⟨c :: cs, e⟩ =>
    let body := if c = '-' ∨ c = '+' then cs else c :: cs
    let r := readDigits body e
    if r.1 = [] then (none, r.2)
    else if c = '-' then (some (toInt32 (-(digitsValue r.1 : Int))), r.2)
    else (some (toInt32 (digitsValue r.1 : Int)), r.2)

/-- The call `scanf("%d %d\n", &a, &b)` of line 7. The arguments `a0`, `b0` are the indeterminate
values the uninitialised `a` and `b` hold before the call; a variable whose conversion is not
reached keeps it. Conversion stops at the first failure. -/
def scanfInts (a0 b0 : Int) (st : Stream) : Int × Int × Stream :=
  match scanInt st with
  | (none, st1) => (a0, b0, st1)
  | (some a, st1) =>
    match scanInt (skipSpace st1) with
    | (none, st2) => (a, b0, st2)
    | (some b, st2) => (a, b, skipSpace st2)

/-! ## `%9s` -/

/-- The characters read by `%s` with a field width: at most `width` characters, up to the first
white-space character, which stays unread. Running into the end of the input sets the
end-of-file indicator; when the width is used up no further character is looked at. -/
def readToken : Nat → List Char → Bool → List Char × Stream
  | 0, cs, e => ([], ⟨cs, e⟩)
  | _ + 1, [], _ => ([], ⟨[], true⟩)
  | w + 1, c :: cs, e =>
    if isSpace c then ([], ⟨c :: cs, e⟩)
    else ((readToken w cs e).1.cons c, (readToken w cs e).2)

/-- The buffer after `%s` stored the characters `t` and the terminator at its start; the bytes
behind the terminator keep their old content. -/
def storeStr (s : List Char) (t : List Char) : List Char :=
  t ++ NUL :: s.drop (t.length + 1)

/-- The call `scanf("%9s\n", s)` of line 15. When the input ends before a character of the token
(input failure) the buffer is left as it was. -/
def scanfToken (s0 : List Char) (st : Stream) : List Char × Stream :=
  match skipSpace st with
  | ⟨[], e⟩ => (s0, ⟨[], e⟩)
  | ⟨c :: cs, e⟩ =>
    let r := readToken 9 (c :: cs) e
    (storeStr s0 r.1, skipSpace r.2)

/-! ## `strlen`, `printf` -/

/-- C `strlen` on the buffer: the index of the first terminator; `none` when the buffer holds no
terminator, where `strlen` reads past the end of the array (undefined behaviour). -/
def strlen : List Char → Option Nat
  | [] => none
  | c :: cs => if c = NUL then some 0 else (strlen cs).map (· + 1)

/-- What `printf("%s", s)` writes: the characters before the first terminator. -/
def cstr (s : List Char) : List Char :=
  s.takeWhile (fun c => c ≠ NUL)

/-- The decimal digit for `d < 10`. -/
def digitChar (d : Nat) : Char := Char.ofNat (48 + d)

/-- The decimal digits of `n`, most significant first; `fuel` bounds the number of digits and
`n + 1` is always enough. -/
def natDigits : Nat → Nat → List Char
  | 0, _ => []
  | fuel + 1, n =>
    if n < 10 then [digitChar n] else natDigits fuel (n / 10) ++ [digitChar (n % 10)]

/-- What `printf("%d", z)` writes. -/
def fmtInt (z : Int) : List Char :=
  if z < 0 then '-' :: natDigits (z.natAbs + 1) z.natAbs else natDigits (z.natAbs + 1) z.natAbs

/-! ## The reversal loop, lines 21 to 26 -/

/-- The read `s[i]` with the index checked against the array: `none` outside it. -/
def readAt (s : List Char) (i : Int) : Option Char :=
  if 0 ≤ i ∧ i < s.length then s[i.toNat]? else none

/-- The write `s[i] = c` with the index checked against the array: `none` outside it. -/
def writeAt (s : List Char) (i : Int) (c : Char) : Option (List Char) :=
  if 0 ≤ i ∧ i < s.length then some (s.set i.toNat c) else none

/-- The loop body, lines 23 to 25. -/
def swapStep (s : List Char) (len i : Int) : Option (List Char) :=
  match readAt s i with
  | none => none
  | some temp =>
    match readAt s (len - i - 1) with
    | none => none
    | some x =>
      match writeAt s i x with
      | none => none
      | some s1 => writeAt s1 (len - i - 1) temp

/-- The loop `for (int i = ...; i < len / 2; i++)` from the current `i`, with C's truncating
division. `none` when an index leaves the array or when `fuel` iterations did not end the loop. -/
def reverseLoop : Nat → List Char → Int → Int → Option (List Char)
  | 0, s, len, i => if i < Int.tdiv len 2 then none else some s
  | fuel + 1, s, len, i =>
    if i < Int.tdiv len 2 then
      match swapStep s len i with
      | none => none
      | some s1 => reverseLoop fuel s1 len (i + 1)
    else some s

/-- The loop of lines 21 to 26 run from `i = 0`; `len` iterations always end it. -/
def reverse (s : List Char) (len : Int) : Option (List Char) :=
  reverseLoop len.toNat s len 0

/-! ## The program -/

/-- How a run ends: a normal return from `main`, or undefined behaviour. -/
inductive Status where
  | exited
  | undefined
deriving DecidableEq

/-- What a run writes to its two output streams, and how it ends. When the run ends in undefined
behaviour the streams hold what was written before. -/
structure Run where
  stdout : List Char
  stderr : List Char
  status : Status
deriving DecidableEq

/-- The state at line 19: `a`, `b`, the buffer `s` and `stdin` after both `scanf` calls. -/
def afterReads (a0 b0 : Int) (s0 : List Char) (input : List Char) :
    Int × Int × List Char × Stream :=
  let r1 := scanfInts a0 b0 ⟨input, false⟩
  let r2 := scanfToken s0 r1.2.2
  (r1.1, r1.2.1, r2.1, r2.2)

/-- The program `main` of `foo.c` on the input `input`. The arguments `a0`, `b0` and `s0` are the
indeterminate initial contents of `a`, `b` and `s`. The sum is taken with 32-bit wraparound. -/
def main (a0 b0 : Int) (s0 : List Char) (input : List Char) : Run :=
  let r := afterReads a0 b0 s0 input
  let out := fmtInt (wrap32 (r.1 + r.2.1)) ++ ['\n']
  let s := r.2.2.1
  match strlen s with
  | none => ⟨out, [], Status.undefined⟩
  | some len =>
    if r.2.2.2.eof then
      match reverse s (len : Int) with
      | none => ⟨out, [], Status.undefined⟩
      | some s1 => ⟨out ++ cstr s1 ++ ['\n'], [], Status.exited⟩
    else ⟨out, "String is too long\n".toList, Status.exited⟩

/-- The bytes of an uninitialised ten-byte buffer used in the examples. -/
def junk : List Char := "??????????".toList

/-! ## Auxiliary definitions for the statements -/

/-- The buffer after `k` iterations of the loop on `s` with length `n`. -/
def SwappedTo (s : List Char) (n k : Nat) (t : List Char) : Prop :=
  t.length = s.length ∧
    ∀ j, t[j]? = if j < k ∨ (n - k ≤ j ∧ j < n) then s[n - 1 - j]? else s[j]?

/-- The next unread character satisfies `p`. -/
def startsWith (p : Char → Bool) : List Char → Bool
  | [] => false
  | c :: _ => p c

/-- The stream after a read loop stopped in front of `rest`: stopping at the end of the input
sets the end-of-file indicator. -/
def endAt (rest : List Char) (e : Bool) : Stream :=
  match rest with
  | [] => ⟨[], true⟩
  | c :: cs => ⟨c :: cs, e⟩

/-- The token ends here: the input ends or goes on with white space. -/
def tokenEnds : List Char → Bool
  | [] => true
  | c :: _ => isSpace c

/-- The line `printf("%d\n", a + b)` writes when `%d` was given the texts of `a` and `b`. -/
def sumLine (a b : Int) : List Char :=
  fmtInt (wrap32 (toInt32 a + toInt32 b)) ++ ['\n']

/-- The input with every run of white space replaced by one space; `prev` tells that the
character before was white space. -/
def squeeze : Bool → List Char → List Char
  | _, [] => []
  | prev, c :: cs =>
    if isSpace c then (if prev then squeeze true cs else ' ' :: squeeze true cs)
    else c :: squeeze false cs

/-! ## The reversal loop -/

theorem readAt_natCast (s : List Char) (k : Nat) : readAt s (k : Int) = s[k]? := by
  unfold readAt
  by_cases h : k < s.length
  · simp [h]
  · have h2 : s.length ≤ k := Nat.le_of_not_lt h
    simp [h, List.getElem?_eq_none h2]

theorem writeAt_natCast (s : List Char) (k : Nat) (c : Char) :
    writeAt s (k : Int) c = if k < s.length then some (s.set k c) else none := by
  unfold writeAt
  by_cases h : k < s.length <;> simp [h]

theorem tdiv_two_natCast (n : Nat) : Int.tdiv (n : Int) 2 = ((n / 2 : Nat) : Int) := by
  rw [Int.tdiv_eq_ediv (Int.ofNat_nonneg n) (by decide)]
  simp

theorem swappedTo_zero (s : List Char) (n : Nat) : SwappedTo s n 0 s := by
  refine ⟨rfl, fun j => ?_⟩
  have : ¬ (j < 0 ∨ (n - 0 ≤ j ∧ j < n)) := by omega
  rw [if_neg this]

theorem swapStep_swappedTo (s t : List Char) (n k : Nat) (hn : n ≤ s.length)
    (hk : k < n / 2) (h : SwappedTo s n k t) :
    ∃ t1, swapStep t (n : Int) (k : Int) = some t1 ∧ SwappedTo s n (k + 1) t1 := by
  obtain ⟨hlen, hget⟩ := h
  have e1 : ((n : Int) - (k : Int) - 1) = ((n - k - 1 : Nat) : Int) := by omega
  have hk1 : k < t.length := by omega
  have hk2 : n - k - 1 < t.length := by omega
  have g1 : t[k]? = some (t[k]) := List.getElem?_eq_getElem hk1
  have g2 : t[n - k - 1]? = some (t[n - k - 1]) := List.getElem?_eq_getElem hk2
  refine ⟨(t.set k (t[n - k - 1])).set (n - k - 1) (t[k]), ?_, ?_⟩
  · unfold swapStep
    rw [e1, readAt_natCast, readAt_natCast, g1, g2]
    simp only [writeAt_natCast, hk1, if_true, List.length_set, hk2]
  · refine ⟨by simp [hlen], fun j => ?_⟩
    rw [List.getElem?_set, List.getElem?_set]
    simp only [List.length_set]
    have hA := hget k
    have hB := hget (n - k - 1)
    have hj := hget j
    rw [g1] at hA
    rw [g2] at hB
    have cA : ¬ (k < k ∨ (n - k ≤ k ∧ k < n)) := by omega
    have cB : ¬ (n - k - 1 < k ∨ (n - k ≤ n - k - 1 ∧ n - k - 1 < n)) := by omega
    rw [if_neg cA] at hA
    rw [if_neg cB] at hB
    by_cases c1 : n - k - 1 = j
    · have c3 : j < k + 1 ∨ (n - (k + 1) ≤ j ∧ j < n) := by omega
      have e3 : n - 1 - j = k := by omega
      rw [if_pos c1, if_pos hk2, if_pos c3, e3, hA]
    · rw [if_neg c1]
      by_cases c2 : k = j
      · have c3 : j < k + 1 ∨ (n - (k + 1) ≤ j ∧ j < n) := by omega
        have e3 : n - 1 - j = n - k - 1 := by omega
        rw [if_pos c2, if_pos hk1, if_pos c3, e3, hB]
      · rw [if_neg c2, hj]
        by_cases c3 : j < k ∨ (n - k ≤ j ∧ j < n)
        · have c4 : j < k + 1 ∨ (n - (k + 1) ≤ j ∧ j < n) := by omega
          rw [if_pos c3, if_pos c4]
        · have c4 : ¬ (j < k + 1 ∨ (n - (k + 1) ≤ j ∧ j < n)) := by omega
          rw [if_neg c3, if_neg c4]

theorem reverseLoop_swappedTo (s : List Char) (n : Nat) (hn : n ≤ s.length) :
    ∀ (fuel k : Nat) (t : List Char), k ≤ n / 2 → n / 2 - k ≤ fuel → SwappedTo s n k t →
      ∃ r, reverseLoop fuel t (n : Int) (k : Int) = some r ∧ SwappedTo s n (n / 2) r := by
  intro fuel
  induction fuel with
  | zero =>
    intro k t hk hf h
    have hk2 : k = n / 2 := by omega
    refine ⟨t, ?_, hk2 ▸ h⟩
    have : ¬ ((k : Int) < ((n / 2 : Nat) : Int)) := by omega
    simp only [reverseLoop, tdiv_two_natCast, if_neg this]
  | succ fuel ih =>
    intro k t hk hf h
    by_cases c : k < n / 2
    · obtain ⟨t1, h1, h2⟩ := swapStep_swappedTo s t n k hn c h
      obtain ⟨r, h3, h4⟩ := ih (k + 1) t1 (by omega) (by omega) h2
      refine ⟨r, ?_, h4⟩
      have c2 : (k : Int) < ((n / 2 : Nat) : Int) := by omega
      have e : ((k : Int) + 1) = ((k + 1 : Nat) : Int) := by omega
      simp only [reverseLoop, tdiv_two_natCast, c2, if_true, h1, e, h3]
    · have hk2 : k = n / 2 := by omega
      refine ⟨t, ?_, hk2 ▸ h⟩
      have : ¬ ((k : Int) < ((n / 2 : Nat) : Int)) := by omega
      simp only [reverseLoop, tdiv_two_natCast, if_neg this]

theorem swappedTo_half (s r : List Char) (n : Nat) (hn : n ≤ s.length)
    (h : SwappedTo s n (n / 2) r) : r = (s.take n).reverse ++ s.drop n := by
  obtain ⟨hlen, hget⟩ := h
  apply List.ext_getElem?
  intro j
  rw [hget j, List.getElem?_append]
  simp only [List.length_reverse, List.length_take, Nat.min_eq_left hn]
  by_cases c : j < n
  · rw [if_pos c, List.getElem?_reverse (by simp; omega)]
    simp only [List.length_take, Nat.min_eq_left hn]
    rw [List.getElem?_take_of_lt (by omega)]
    by_cases c2 : j < n / 2 ∨ (n - n / 2 ≤ j ∧ j < n)
    · rw [if_pos c2]
    · rw [if_neg c2]
      have : n - 1 - j = j := by omega
      rw [this]
  · have c2 : ¬ (j < n / 2 ∨ (n - n / 2 ≤ j ∧ j < n)) := by omega
    rw [if_neg c, if_neg c2, List.getElem?_drop]
    congr 1
    omega

/-- The loop run from `i = 0` reverses the first `n` characters and keeps the others. -/
theorem reverse_eq (s : List Char) (n : Nat) (hn : n ≤ s.length) :
    reverse s (n : Int) = some ((s.take n).reverse ++ s.drop n) := by
  obtain ⟨r, h1, h2⟩ :=
    reverseLoop_swappedTo s n hn n 0 s (Nat.zero_le _) (by omega) (swappedTo_zero s n)
  have h3 := swappedTo_half s r n hn h2
  unfold reverse
  rw [Int.toNat_ofNat]
  rw [← h3]
  exact h1

/-! ## Characters and digits -/

theorem digitChar_spec (d : Nat) (h : d < 10) :
    isDigit (digitChar d) = true ∧ (digitChar d).toNat - 48 = d ∧
      isSpace (digitChar d) = false ∧ digitChar d ≠ '-' ∧ digitChar d ≠ '+' := by
  interval_cases d <;> decide

theorem isDigit_not_isSpace (c : Char) (h : isDigit c = true) :
    isSpace c = false ∧ c ≠ '-' ∧ c ≠ '+' := by
  unfold isDigit at h
  simp only [Bool.and_eq_true, decide_eq_true_eq] at h
  have key : ∀ d : Char, c = d → d.toNat < 48 → False := by
    intro d hd hlt
    subst hd
    omega
  refine ⟨?_, fun hc => key _ hc (by decide), fun hc => key _ hc (by decide)⟩
  unfold isSpace
  simp only [Bool.or_eq_false_iff, decide_eq_false_iff_not]
  exact ⟨⟨⟨⟨⟨fun hc => key _ hc (by decide), fun hc => key _ hc (by decide)⟩,
    fun hc => key _ hc (by decide)⟩, fun hc => key _ hc (by decide)⟩,
    fun hc => key _ hc (by decide)⟩, fun hc => key _ hc (by decide)⟩

theorem digitsValue_snoc (ds : List Char) (c : Char) :
    digitsValue (ds ++ [c]) = digitsValue ds * 10 + (c.toNat - 48) := by
  simp [digitsValue, List.foldl_append]

theorem natDigits_spec : ∀ (fuel n : Nat), n < fuel →
    (∀ c ∈ natDigits fuel n, isDigit c = true) ∧ natDigits fuel n ≠ [] ∧
      digitsValue (natDigits fuel n) = n := by
  intro fuel
  induction fuel with
  | zero => intro n h; omega
  | succ fuel ih =>
    intro n h
    by_cases c : n < 10
    · have hd := digitChar_spec n c
      simp only [natDigits, if_pos c]
      refine ⟨?_, by simp, ?_⟩
      · intro x hx
        simp only [List.mem_singleton] at hx
        rw [hx]; exact hd.1
      · simp [digitsValue, hd.2.1]
    · have hd := digitChar_spec (n % 10) (Nat.mod_lt _ (by decide))
      obtain ⟨h1, h2, h3⟩ := ih (n / 10) (by omega)
      simp only [natDigits, if_neg c]
      refine ⟨?_, by simp, ?_⟩
      · intro x hx
        rcases List.mem_append.1 hx with hx | hx
        · exact h1 x hx
        · simp only [List.mem_singleton] at hx
          rw [hx]; exact hd.1
      · rw [digitsValue_snoc, h3, hd.2.1]
        omega

/-! ## White space -/

theorem skipSpaceAux_append (w rest : List Char) (e : Bool) (hw : ∀ c ∈ w, isSpace c = true) :
    skipSpaceAux (w ++ rest) e = skipSpaceAux rest e := by
  induction w with
  | nil => rfl
  | cons c cs ih =>
    have hc : isSpace c = true := hw c (List.mem_cons_self _ _)
    simp only [List.cons_append, skipSpaceAux, hc, if_true]
    exact ih (fun x hx => hw x (List.mem_cons_of_mem _ hx))

theorem skipSpaceAux_cons (c : Char) (cs : List Char) (e : Bool) (hc : isSpace c = false) :
    skipSpaceAux (c :: cs) e = ⟨c :: cs, e⟩ := by
  simp [skipSpaceAux, hc]

theorem skipSpace_endAt (rest : List Char) (e : Bool) :
    skipSpace (endAt rest e) = skipSpaceAux rest e := by
  cases rest <;> rfl

theorem skipSpaceAux_eof (rest : List Char) :
    (skipSpaceAux rest false).eof = rest.all isSpace := by
  induction rest with
  | nil => rfl
  | cons c cs ih =>
    by_cases hc : isSpace c = true
    · simp [skipSpaceAux, hc, ih]
    · simp [skipSpaceAux, hc]

/-! ## `%d` reads back what `printf("%d")` writes -/

theorem readDigits_append (ds rest : List Char) (e : Bool) (hd : ∀ c ∈ ds, isDigit c = true)
    (hr : startsWith isDigit rest = false) : readDigits (ds ++ rest) e = (ds, endAt rest e) := by
  induction ds with
  | nil =>
    cases rest with
    | nil => rfl
    | cons c cs =>
      have hc : isDigit c = false := hr
      simp [readDigits, hc, endAt]
  | cons c cs ih =>
    have hc : isDigit c = true := hd c (List.mem_cons_self _ _)
    have h := ih (fun x hx => hd x (List.mem_cons_of_mem _ hx))
    simp [readDigits, hc, h]

theorem scanInt_fmtInt (z : Int) (rest : List Char) (e : Bool)
    (hr : startsWith isDigit rest = false) :
    scanInt ⟨fmtInt z ++ rest, e⟩ = (some (toInt32 z), endAt rest e) := by
  obtain ⟨h1, h2, h3⟩ := natDigits_spec (z.natAbs + 1) z.natAbs (Nat.lt_succ_self _)
  have hrd := readDigits_append _ rest e h1 hr
  by_cases hz : z < 0
  · have hv : (-(z.natAbs : Int)) = z := by omega
    have hsp : skipSpace ⟨'-' :: (natDigits (z.natAbs + 1) z.natAbs ++ rest), e⟩ =
        ⟨'-' :: (natDigits (z.natAbs + 1) z.natAbs ++ rest), e⟩ :=
      skipSpaceAux_cons _ _ _ (by decide)
    simp only [fmtInt, if_pos hz, List.cons_append]
    unfold scanInt
    rw [hsp]
    simp only [true_or, if_true, hrd, h2, if_false, h3, hv]
  · have hv : ((z.natAbs : Nat) : Int) = z := by omega
    simp only [fmtInt, if_neg hz]
    cases hds : natDigits (z.natAbs + 1) z.natAbs with
    | nil => exact absurd hds h2
    | cons d ds =>
      rw [hds] at hrd h1 h3
      have hdd : isDigit d = true := h1 d (List.mem_cons_self _ _)
      obtain ⟨q1, q2, q3⟩ := isDigit_not_isSpace d hdd
      have hsp : skipSpace ⟨d :: (ds ++ rest), e⟩ = ⟨d :: (ds ++ rest), e⟩ :=
        skipSpaceAux_cons _ _ _ q1
      have hno : ¬ (d = '-' ∨ d = '+') := by simp [q2, q3]
      unfold scanInt
      rw [List.cons_append, hsp]
      simp only [if_neg hno, if_neg q2]
      rw [← List.cons_append, hrd]
      simp only [h3, hv]
      simp

theorem wrap32_of_fits (z : Int) (h1 : -2147483648 ≤ z) (h2 : z ≤ 2147483647) : wrap32 z = z := by
  unfold wrap32
  omega

theorem toInt32_of_fits (z : Int) (h1 : -2147483648 ≤ z) (h2 : z ≤ 2147483647) :
    toInt32 z = z := by
  have hc : clampLong z = z := by
    unfold clampLong
    rw [if_neg (by omega), if_neg (by omega)]
  unfold toInt32
  rw [hc]
  exact wrap32_of_fits z h1 h2

theorem fmtInt_head (z : Int) :
    ∃ c cs, fmtInt z = c :: cs ∧ isSpace c = false := by
  obtain ⟨h1, h2, _⟩ := natDigits_spec (z.natAbs + 1) z.natAbs (Nat.lt_succ_self _)
  by_cases hz : z < 0
  · exact ⟨'-', natDigits (z.natAbs + 1) z.natAbs, by simp only [fmtInt, if_pos hz], by decide⟩
  · cases hds : natDigits (z.natAbs + 1) z.natAbs with
    | nil => exact absurd hds h2
    | cons d ds =>
      rw [hds] at h1
      exact ⟨d, ds, by simp only [fmtInt, if_neg hz, hds],
        (isDigit_not_isSpace d (h1 d (List.mem_cons_self _ _))).1⟩

/-- The first `scanf` on two printed integers separated by white space. -/
theorem scanfInts_spec (a0 b0 a b : Int) (w rest : List Char)
    (hw : ∀ c ∈ w, isSpace c = true) (hne : w ≠ [])
    (hr : startsWith isDigit rest = false) :
    scanfInts a0 b0 ⟨fmtInt a ++ (w ++ (fmtInt b ++ rest)), false⟩ =
      (toInt32 a, toInt32 b, skipSpaceAux rest false) := by
  obtain ⟨c, cs, hb, hcs⟩ := fmtInt_head b
  have hw0 : startsWith isDigit (w ++ (fmtInt b ++ rest)) = false := by
    cases w with
    | nil => exact absurd rfl hne
    | cons x xs =>
      have hx : isSpace x = true := hw x (List.mem_cons_self _ _)
      show isDigit x = false
      by_contra hcon
      have := (isDigit_not_isSpace x (by simpa using hcon)).1
      rw [this] at hx
      exact Bool.noConfusion hx
  have e1 : endAt (w ++ (fmtInt b ++ rest)) false = ⟨w ++ (fmtInt b ++ rest), false⟩ := by
    cases w with
    | nil => exact absurd rfl hne
    | cons x xs => rfl
  have e2 : skipSpace ⟨w ++ (fmtInt b ++ rest), false⟩ = ⟨fmtInt b ++ rest, false⟩ := by
    show skipSpaceAux (w ++ (fmtInt b ++ rest)) false = _
    rw [skipSpaceAux_append w _ _ hw, hb, List.cons_append]
    exact skipSpaceAux_cons _ _ _ hcs
  unfold scanfInts
  rw [scanInt_fmtInt a _ false hw0]
  simp only [e1, e2]
  rw [scanInt_fmtInt b _ false hr]
  simp only [skipSpace_endAt]

/-! ## `%9s` -/

theorem readToken_short : ∀ (w : Nat) (t tail : List Char) (e : Bool),
    (∀ c ∈ t, isSpace c = false) → t.length < w → tokenEnds tail = true →
      readToken w (t ++ tail) e = (t, endAt tail e) := by
  intro w
  induction w with
  | zero => intro t tail e _ h _; omega
  | succ w ih =>
    intro t tail e ht hl hend
    cases t with
    | nil =>
      cases tail with
      | nil => rfl
      | cons c cs =>
        have hc : isSpace c = true := hend
        simp [readToken, hc, endAt]
    | cons c cs =>
      have hc : isSpace c = false := ht c (List.mem_cons_self _ _)
      have h := ih cs tail e (fun x hx => ht x (List.mem_cons_of_mem _ hx))
        (by simpa using hl) hend
      simp [readToken, hc, h]

theorem readToken_full : ∀ (w : Nat) (t tail : List Char) (e : Bool),
    (∀ c ∈ t, isSpace c = false) → w ≤ t.length →
      readToken w (t ++ tail) e = (t.take w, ⟨t.drop w ++ tail, e⟩) := by
  intro w
  induction w with
  | zero => intro t tail e _ _; simp [readToken]
  | succ w ih =>
    intro t tail e ht hl
    cases t with
    | nil => simp at hl
    | cons c cs =>
      have hc : isSpace c = false := ht c (List.mem_cons_self _ _)
      have h := ih cs tail e (fun x hx => ht x (List.mem_cons_of_mem _ hx))
        (by simpa using hl)
      simp [readToken, hc, h]

/-- The second `scanf` in front of a token of at most nine characters. -/
theorem scanfToken_short (s0 t tail : List Char) (ht : ∀ c ∈ t, isSpace c = false)
    (hne : t ≠ []) (hl : t.length ≤ 9) (hend : tokenEnds tail = true) :
    scanfToken s0 (skipSpaceAux (t ++ tail) false) =
      (storeStr s0 t, skipSpaceAux tail false) := by
  cases t with
  | nil => exact absurd rfl hne
  | cons c cs =>
    have hc : isSpace c = false := ht c (List.mem_cons_self _ _)
    have h1 : skipSpaceAux (c :: cs ++ tail) false = ⟨c :: (cs ++ tail), false⟩ :=
      skipSpaceAux_cons _ _ _ hc
    have h2 : skipSpace ⟨c :: (cs ++ tail), false⟩ = ⟨c :: (cs ++ tail), false⟩ :=
      skipSpaceAux_cons _ _ _ hc
    rw [h1]
    unfold scanfToken
    rw [h2]
    simp only
    rw [← List.cons_append]
    by_cases h9 : (c :: cs).length < 9
    · rw [readToken_short 9 _ tail false ht h9 hend, skipSpace_endAt]
    · have h9e : (c :: cs).length = 9 := by omega
      rw [readToken_full 9 _ tail false ht (by omega)]
      have e1 : (c :: cs).take 9 = c :: cs := List.take_of_length_le (by omega)
      have e2 : (c :: cs).drop 9 = [] := List.drop_of_length_le (by omega)
      rw [e1, e2]
      rfl

/-- The second `scanf` in front of a token of more than nine characters. -/
theorem scanfToken_long (s0 t tail : List Char) (ht : ∀ c ∈ t, isSpace c = false)
    (hl : 9 < t.length) :
    scanfToken s0 (skipSpaceAux (t ++ tail) false) =
      (storeStr s0 (t.take 9), ⟨t.drop 9 ++ tail, false⟩) := by
  cases t with
  | nil => simp at hl
  | cons c cs =>
    have hc : isSpace c = false := ht c (List.mem_cons_self _ _)
    have h1 : skipSpaceAux (c :: cs ++ tail) false = ⟨c :: (cs ++ tail), false⟩ :=
      skipSpaceAux_cons _ _ _ hc
    have h2 : skipSpace ⟨c :: (cs ++ tail), false⟩ = ⟨c :: (cs ++ tail), false⟩ :=
      skipSpaceAux_cons _ _ _ hc
    rw [h1]
    unfold scanfToken
    rw [h2]
    simp only
    rw [← List.cons_append, readToken_full 9 _ tail false ht (by omega)]
    cases hd : (c :: cs).drop 9 with
    | nil =>
      have := congrArg List.length hd
      simp only [List.length_drop, List.length_nil] at this
      omega
    | cons x xs =>
      have hx : isSpace x = false :=
        ht x (List.mem_of_mem_drop (hd ▸ List.mem_cons_self x xs))
      have h3 : skipSpace ⟨x :: xs ++ tail, false⟩ = ⟨x :: xs ++ tail, false⟩ :=
        skipSpaceAux_cons _ _ _ hx
      rw [h3]

/-! ## `strlen` and `%s` -/

theorem strlen_spec : ∀ (s : List Char) (k : Nat), strlen s = some k →
    k = (cstr s).length ∧ s = cstr s ++ NUL :: s.drop (k + 1) := by
  intro s
  induction s with
  | nil => intro k h; simp [strlen] at h
  | cons c cs ih =>
    intro k h
    by_cases hc : c = NUL
    · simp only [strlen, if_pos hc, Option.some.injEq] at h
      subst h
      simp [cstr, hc]
    · simp only [strlen, if_neg hc, Option.map_eq_some'] at h
      obtain ⟨j, hj, hk⟩ := h
      obtain ⟨h1, h2⟩ := ih j hj
      subst hk
      have e : cstr (c :: cs) = c :: cstr cs := by simp [cstr, hc]
      rw [e]
      refine ⟨by simp [h1], ?_⟩
      simp only [List.cons_append, List.drop_succ_cons]
      exact congrArg (List.cons c) h2

theorem cstr_no_nul (s : List Char) : ∀ c ∈ cstr s, c ≠ NUL := by
  intro c hc
  have := List.mem_takeWhile_imp hc
  simpa using this

theorem cstr_append_nul (p r : List Char) (hp : ∀ c ∈ p, c ≠ NUL) :
    cstr (p ++ NUL :: r) = p := by
  induction p with
  | nil => simp [cstr]
  | cons c cs ih =>
    have hc : c ≠ NUL := hp c (List.mem_cons_self _ _)
    have h := ih (fun x hx => hp x (List.mem_cons_of_mem _ hx))
    have hd : decide (c ≠ NUL) = true := by simp [hc]
    unfold cstr at h ⊢
    rw [List.cons_append, List.takeWhile_cons, hd, if_pos rfl, h]

theorem cstr_append_left (t r : List Char) : cstr (t ++ NUL :: r) = cstr t := by
  induction t with
  | nil => simp [cstr]
  | cons c cs ih =>
    by_cases hc : c = NUL
    · simp [cstr, hc]
    · have hd : decide (c ≠ NUL) = true := by simp [hc]
      unfold cstr at ih ⊢
      rw [List.cons_append, List.takeWhile_cons, List.takeWhile_cons, hd, if_pos rfl, if_pos rfl,
        ih]

theorem cstr_storeStr (s0 t : List Char) : cstr (storeStr s0 t) = cstr t :=
  cstr_append_left t _

theorem strlen_append_nul (p r : List Char) :
    strlen (p ++ NUL :: r) = some (cstr p).length := by
  induction p with
  | nil => simp [strlen, cstr]
  | cons c cs ih =>
    by_cases hc : c = NUL
    · simp [strlen, cstr, hc]
    · simp [strlen, cstr, hc, ih]

/-- The loop on a terminated buffer succeeds, and `%s` then prints the string reversed. -/
theorem reverse_cstr (s : List Char) (k : Nat) (h : strlen s = some k) :
    ∃ r, reverse s (k : Int) = some r ∧ cstr r = (cstr s).reverse := by
  obtain ⟨h1, h2⟩ := strlen_spec s k h
  have hk : k ≤ s.length := by
    have := congrArg List.length h2
    simp only [List.length_append, List.length_cons] at this
    omega
  refine ⟨_, reverse_eq s k hk, ?_⟩
  have e1 : s.take k = cstr s := by
    conv_lhs => rw [h2]
    rw [h1, List.take_left]
  have e2 : s.drop k = NUL :: s.drop (k + 1) := by
    conv_lhs => rw [h2]
    rw [h1, List.drop_left]
  rw [e1, e2]
  exact cstr_append_nul _ _ (fun c hc => cstr_no_nul s c (List.mem_reverse.1 hc))

/-! ## The program -/

/-- The run from the state at line 19, when the buffer holds a terminated string. -/
theorem main_of_afterReads (a0 b0 : Int) (s0 input : List Char) (k : Nat)
    (h : strlen (afterReads a0 b0 s0 input).2.2.1 = some k) :
    main a0 b0 s0 input =
      if (afterReads a0 b0 s0 input).2.2.2.eof = true then
        ⟨fmtInt (wrap32 ((afterReads a0 b0 s0 input).1 + (afterReads a0 b0 s0 input).2.1)) ++
            ['\n'] ++ (cstr (afterReads a0 b0 s0 input).2.2.1).reverse ++ ['\n'], [],
          Status.exited⟩
      else
        ⟨fmtInt (wrap32 ((afterReads a0 b0 s0 input).1 + (afterReads a0 b0 s0 input).2.1)) ++
            ['\n'], "String is too long\n".toList, Status.exited⟩ := by
  obtain ⟨r, hr1, hr2⟩ := reverse_cstr _ k h
  unfold main
  simp only [h]
  by_cases he : (afterReads a0 b0 s0 input).2.2.2.eof = true
  · simp only [he, if_true, hr1, hr2]
  · simp only [he, if_false]
    rfl

theorem afterReads_short (a0 b0 a b : Int) (s0 w1 w2 t tail : List Char)
    (hw1 : ∀ c ∈ w1, isSpace c = true) (hn1 : w1 ≠ [])
    (hw2 : ∀ c ∈ w2, isSpace c = true) (hn2 : w2 ≠ [])
    (ht : ∀ c ∈ t, isSpace c = false) (hne : t ≠ []) (hl : t.length ≤ 9)
    (hend : tokenEnds tail = true) :
    afterReads a0 b0 s0 (fmtInt a ++ (w1 ++ (fmtInt b ++ (w2 ++ (t ++ tail))))) =
      (toInt32 a, toInt32 b, storeStr s0 t, skipSpaceAux tail false) := by
  have hr : startsWith isDigit (w2 ++ (t ++ tail)) = false := by
    cases w2 with
    | nil => exact absurd rfl hn2
    | cons x xs =>
      have hx : isSpace x = true := hw2 x (List.mem_cons_self _ _)
      show isDigit x = false
      by_contra hcon
      have := (isDigit_not_isSpace x (by simpa using hcon)).1
      rw [this] at hx
      exact Bool.noConfusion hx
  unfold afterReads
  simp only [scanfInts_spec a0 b0 a b w1 _ hw1 hn1 hr, skipSpaceAux_append w2 _ _ hw2,
    scanfToken_short s0 t tail ht hne hl hend]

theorem afterReads_long (a0 b0 a b : Int) (s0 w1 w2 t tail : List Char)
    (hw1 : ∀ c ∈ w1, isSpace c = true) (hn1 : w1 ≠ [])
    (hw2 : ∀ c ∈ w2, isSpace c = true) (hn2 : w2 ≠ [])
    (ht : ∀ c ∈ t, isSpace c = false) (hl : 9 < t.length) :
    afterReads a0 b0 s0 (fmtInt a ++ (w1 ++ (fmtInt b ++ (w2 ++ (t ++ tail))))) =
      (toInt32 a, toInt32 b, storeStr s0 (t.take 9), ⟨t.drop 9 ++ tail, false⟩) := by
  have hr : startsWith isDigit (w2 ++ (t ++ tail)) = false := by
    cases w2 with
    | nil => exact absurd rfl hn2
    | cons x xs =>
      have hx : isSpace x = true := hw2 x (List.mem_cons_self _ _)
      show isDigit x = false
      by_contra hcon
      have := (isDigit_not_isSpace x (by simpa using hcon)).1
      rw [this] at hx
      exact Bool.noConfusion hx
  unfold afterReads
  simp only [scanfInts_spec a0 b0 a b w1 _ hw1 hn1 hr, skipSpaceAux_append w2 _ _ hw2,
    scanfToken_long s0 t tail ht hl]

/-- The run on two integers and a token of at most nine characters. -/
theorem main_short (a0 b0 a b : Int) (s0 w1 w2 t tail : List Char)
    (hw1 : ∀ c ∈ w1, isSpace c = true) (hn1 : w1 ≠ [])
    (hw2 : ∀ c ∈ w2, isSpace c = true) (hn2 : w2 ≠ [])
    (ht : ∀ c ∈ t, isSpace c = false) (hne : t ≠ []) (hl : t.length ≤ 9)
    (hend : tokenEnds tail = true) :
    main a0 b0 s0 (fmtInt a ++ (w1 ++ (fmtInt b ++ (w2 ++ (t ++ tail))))) =
      if tail.all isSpace = true then
        ⟨sumLine a b ++ (cstr t).reverse ++ ['\n'], [], Status.exited⟩
      else ⟨sumLine a b, "String is too long\n".toList, Status.exited⟩ := by
  have h := afterReads_short a0 b0 a b s0 w1 w2 t tail hw1 hn1 hw2 hn2 ht hne hl hend
  have hs : strlen (afterReads a0 b0 s0
      (fmtInt a ++ (w1 ++ (fmtInt b ++ (w2 ++ (t ++ tail)))))).2.2.1 = some (cstr t).length := by
    rw [h]
    exact strlen_append_nul _ _
  rw [main_of_afterReads a0 b0 s0 _ _ hs, h]
  simp only [skipSpaceAux_eof, sumLine]
  rw [cstr_storeStr]

/-- The run on two integers and a token of more than nine characters. -/
theorem main_long (a0 b0 a b : Int) (s0 w1 w2 t tail : List Char)
    (hw1 : ∀ c ∈ w1, isSpace c = true) (hn1 : w1 ≠ [])
    (hw2 : ∀ c ∈ w2, isSpace c = true) (hn2 : w2 ≠ [])
    (ht : ∀ c ∈ t, isSpace c = false) (hl : 9 < t.length) :
    main a0 b0 s0 (fmtInt a ++ (w1 ++ (fmtInt b ++ (w2 ++ (t ++ tail))))) =
      ⟨sumLine a b, "String is too long\n".toList, Status.exited⟩ := by
  have h := afterReads_long a0 b0 a b s0 w1 w2 t tail hw1 hn1 hw2 hn2 ht hl
  have hs : strlen (afterReads a0 b0 s0
      (fmtInt a ++ (w1 ++ (fmtInt b ++ (w2 ++ (t ++ tail)))))).2.2.1 =
        some (cstr (t.take 9)).length := by
    rw [h]
    exact strlen_append_nul _ _
  rw [main_of_afterReads a0 b0 s0 _ _ hs, h]
  simp [sumLine]

theorem sumLine_of_fits (a b : Int) (ha : -2147483648 ≤ a ∧ a ≤ 2147483647)
    (hb : -2147483648 ≤ b ∧ b ≤ 2147483647) :
    sumLine a b = fmtInt (wrap32 (a + b)) ++ ['\n'] := by
  unfold sumLine
  rw [toInt32_of_fits a ha.1 ha.2, toInt32_of_fits b hb.1 hb.2]

theorem cstr_of_no_nul (t : List Char) (h : ∀ c ∈ t, c ≠ NUL) : cstr t = t := by
  unfold cstr
  rw [List.takeWhile_eq_self_iff]
  intro c hc
  simpa using h c hc

theorem main_stdout (a0 b0 : Int) (s0 input : List Char) :
    ∃ more, (main a0 b0 s0 input).stdout =
      fmtInt (wrap32 ((afterReads a0 b0 s0 input).1 + (afterReads a0 b0 s0 input).2.1)) ++
        '\n' :: more := by
  unfold main
  simp only
  cases strlen (afterReads a0 b0 s0 input).2.2.1 with
  | none => exact ⟨[], rfl⟩
  | some k =>
    simp only
    by_cases he : (afterReads a0 b0 s0 input).2.2.2.eof = true
    · simp only [he, if_true]
      cases reverse (afterReads a0 b0 s0 input).2.2.1 (k : Int) with
      | none => exact ⟨[], rfl⟩
      | some r => exact ⟨cstr r ++ ['\n'], by simp⟩
    · simp only [he]
      exact ⟨[], rfl⟩

theorem fmtInt_no_newline (z : Int) : ∀ c ∈ fmtInt z, c ≠ '\n' := by
  obtain ⟨h1, _, _⟩ := natDigits_spec (z.natAbs + 1) z.natAbs (Nat.lt_succ_self _)
  have hd : ∀ c ∈ natDigits (z.natAbs + 1) z.natAbs, c ≠ '\n' := by
    intro c hc hn
    have := (isDigit_not_isSpace c (h1 c hc)).1
    rw [hn] at this
    exact absurd this (by decide)
  intro c hc
  by_cases hz : z < 0
  · simp only [fmtInt, if_pos hz, List.mem_cons] at hc
    rcases hc with hc | hc
    · rw [hc]; decide
    · exact hd c hc
  · simp only [fmtInt, if_neg hz] at hc
    exact hd c hc

theorem afterReads_ints (a0 b0 a b : Int) (s0 w rest : List Char)
    (hw : ∀ c ∈ w, isSpace c = true) (hne : w ≠ [])
    (hr : startsWith isDigit rest = false) :
    (afterReads a0 b0 s0 (fmtInt a ++ (w ++ (fmtInt b ++ rest)))).1 = toInt32 a ∧
      (afterReads a0 b0 s0 (fmtInt a ++ (w ++ (fmtInt b ++ rest)))).2.1 = toInt32 b := by
  unfold afterReads
  simp only [scanfInts_spec a0 b0 a b w rest hw hne hr, and_self]

theorem squeeze_all (l : List Char) : ∀ p, (squeeze p l).all isSpace = l.all isSpace := by
  induction l with
  | nil => intro p; rfl
  | cons c cs ih =>
    intro p
    by_cases hc : isSpace c = true
    · cases p
      · have hsp : isSpace ' ' = true := by decide
        simp [squeeze, hc, ih, hsp]
      · simp [squeeze, hc, ih]
    · simp [squeeze, hc]

theorem squeeze_tokenEnds (l1 l2 : List Char) (h : squeeze false l1 = squeeze false l2) :
    tokenEnds l1 = tokenEnds l2 := by
  have hsp : isSpace ' ' = true := by decide
  cases l1 with
  | nil =>
    cases l2 with
    | nil => rfl
    | cons d ds =>
      by_cases hd : isSpace d = true <;> simp [squeeze, hd] at h
  | cons c cs =>
    cases l2 with
    | nil =>
      by_cases hc : isSpace c = true <;> simp [squeeze, hc] at h
    | cons d ds =>
      show isSpace c = isSpace d
      by_cases hc : isSpace c = true <;> by_cases hd : isSpace d = true
      · rw [hc, hd]
      · simp only [squeeze, hc, hd, if_true, Bool.false_eq_true, if_false,
          List.cons.injEq] at h
        rw [← h.1] at hd
        exact absurd hsp hd
      · simp only [squeeze, hc, hd, if_true, Bool.false_eq_true, if_false,
          List.cons.injEq] at h
        rw [h.1] at hc
        exact absurd hsp hc
      · simp only [Bool.not_eq_true] at hc hd
        rw [hc, hd]

theorem swapStep_length (t t1 : List Char) (len i : Int) (h : swapStep t len i = some t1) :
    t1.length = t.length := by
  unfold swapStep at h
  split at h
  · exact absurd h (by simp)
  · split at h
    · exact absurd h (by simp)
    · split at h
      · exact absurd h (by simp)
      · rename_i s1 hs1
        unfold writeAt at h hs1
        split at h
        · split at hs1
          · simp only [Option.some.injEq] at h hs1
            rw [← h, ← hs1]
            simp
          · exact absurd hs1 (by simp)
        · exact absurd h (by simp)

theorem swapStep_other (t t1 : List Char) (len i : Int) (h : swapStep t len i = some t1)
    (j : Nat) (h1 : (j : Int) ≠ i) (h2 : (j : Int) ≠ len - i - 1) : t1[j]? = t[j]? := by
  unfold swapStep at h
  split at h
  · exact absurd h (by simp)
  · split at h
    · exact absurd h (by simp)
    · split at h
      · exact absurd h (by simp)
      · rename_i s1 hs1
        unfold writeAt at h hs1
        split at h
        · split at hs1
          · rename_i c1 c2
            simp only [Option.some.injEq] at h hs1
            rw [← h, ← hs1, List.getElem?_set, List.getElem?_set]
            have n1 : ¬ ((len - i - 1).toNat = j) := by omega
            have n2 : ¬ (i.toNat = j) := by omega
            rw [if_neg n1, if_neg n2]
          · exact absurd hs1 (by simp)
        · exact absurd h (by simp)

theorem swapStep_isSome (t : List Char) (len i : Int) (h0 : 0 ≤ i) (h1 : i < Int.tdiv len 2)
    (h2 : len ≤ t.length) : ∃ t1, swapStep t len i = some t1 := by
  have hl : 0 ≤ len := by
    by_contra hcon
    have e1 : Int.tdiv (-len) 2 = - Int.tdiv len 2 := Int.neg_tdiv _ _
    have e2 : 0 ≤ Int.tdiv (-len) 2 := Int.tdiv_nonneg (by omega) (by decide)
    omega
  rw [Int.tdiv_eq_ediv hl (by decide)] at h1
  have b1 : 0 ≤ i ∧ i < (t.length : Int) := by omega
  have b2 : 0 ≤ len - i - 1 ∧ len - i - 1 < (t.length : Int) := by omega
  have g1 : i.toNat < t.length := by omega
  have g2 : (len - i - 1).toNat < t.length := by omega
  refine ⟨(t.set i.toNat (t[(len - i - 1).toNat])).set (len - i - 1).toNat (t[i.toNat]), ?_⟩
  unfold swapStep readAt writeAt
  simp only [b1, b2, and_self, if_true, List.getElem?_eq_getElem g1, List.getElem?_eq_getElem g2,
    List.length_set]

/-! ## `fmtInt` against the decimal representation of Lean -/

theorem toDigitsCore_acc : ∀ (fuel n : Nat) (ds : List Char),
    Nat.toDigitsCore 10 fuel n ds = Nat.toDigitsCore 10 fuel n [] ++ ds := by
  intro fuel
  induction fuel with
  | zero => intro n ds; simp [Nat.toDigitsCore]
  | succ fuel ih =>
    intro n ds
    simp only [Nat.toDigitsCore]
    by_cases h : n / 10 = 0
    · simp [h]
    · simp only [h, if_false]
      rw [ih (n / 10) (Nat.digitChar (n % 10) :: ds), ih (n / 10) [Nat.digitChar (n % 10)]]
      simp

theorem digitChar_eq (d : Nat) (h : d < 10) : Nat.digitChar d = digitChar d := by
  interval_cases d <;> rfl

theorem natDigits_eq_toDigitsCore : ∀ (fuel n : Nat), n < fuel →
    natDigits fuel n = Nat.toDigitsCore 10 fuel n [] := by
  intro fuel
  induction fuel with
  | zero => intro n h; omega
  | succ fuel ih =>
    intro n h
    simp only [natDigits, Nat.toDigitsCore]
    by_cases c : n < 10
    · have h0 : n / 10 = 0 := by omega
      have hm : n % 10 = n := by omega
      rw [if_pos c, if_pos h0, hm, digitChar_eq n c]
    · have h0 : ¬ n / 10 = 0 := by omega
      rw [if_neg c, if_neg h0, toDigitsCore_acc, ih (n / 10) (by omega),
        digitChar_eq _ (Nat.mod_lt _ (by decide))]

/-- The text `fmtInt` writes is the decimal representation Lean gives the integer. -/
theorem fmtInt_eq_toString (z : Int) : fmtInt z = (toString z).toList := by
  cases z with
  | ofNat m =>
    have h : ¬ (Int.ofNat m < 0) := Int.not_lt.2 (Int.ofNat_nonneg m)
    simp only [fmtInt, if_neg h, Int.natAbs_ofNat]
    rw [natDigits_eq_toDigitsCore _ _ (Nat.lt_succ_self _)]
    rfl
  | negSucc m =>
    have h : Int.negSucc m < 0 := Int.negSucc_lt_zero m
    simp only [fmtInt, if_pos h, Int.natAbs_negSucc]
    rw [natDigits_eq_toDigitsCore _ _ (Nat.lt_succ_self _)]
    rfl

/-! ## The sum line -/

/-- C1: when the input starts with the decimal text of `a`, white space and the decimal text of
`b` (both fitting in 32 bits, the text of `b` not continued by a further digit), standard output
starts with the decimal string of `a + b` reduced to the signed 32-bit range, which holds no
newline, followed by a newline; the reduced value lies in the 32-bit range, differs from `a + b`
by a multiple of `2^32`, and is `a + b` itself when that fits. -/
theorem sum_line_first (a b : Int) (ha : -2147483648 ≤ a ∧ a ≤ 2147483647)
    (hb : -2147483648 ≤ b ∧ b ≤ 2147483647) (w rest : List Char)
    (hw : ∀ c ∈ w, isSpace c = true) (hne : w ≠ [])
    (hr : startsWith isDigit rest = false) (a0 b0 : Int) (s0 : List Char) :
    (∃ more, (main a0 b0 s0 (fmtInt a ++ (w ++ (fmtInt b ++ rest)))).stdout =
        fmtInt (wrap32 (a + b)) ++ '\n' :: more) ∧
      (∀ c ∈ fmtInt (wrap32 (a + b)), c ≠ '\n') ∧
      (-2147483648 ≤ wrap32 (a + b) ∧ wrap32 (a + b) ≤ 2147483647 ∧
        (wrap32 (a + b) - (a + b)) % 4294967296 = 0) ∧
      (-2147483648 ≤ a + b ∧ a + b ≤ 2147483647 → wrap32 (a + b) = a + b) := by
  refine ⟨?_, fmtInt_no_newline _, ?_, fun h => wrap32_of_fits _ h.1 h.2⟩
  · obtain ⟨more, hm⟩ := main_stdout a0 b0 s0 (fmtInt a ++ (w ++ (fmtInt b ++ rest)))
    obtain ⟨e1, e2⟩ := afterReads_ints a0 b0 a b s0 w rest hw hne hr
    rw [e1, e2, toInt32_of_fits a ha.1 ha.2, toInt32_of_fits b hb.1 hb.2] at hm
    exact ⟨more, hm⟩
  · unfold wrap32
    omega

/-- C1 at the input `"-5 10"`: the first line is `"5"`. -/
theorem sum_line_first_witness :
    (∃ more, (main 0 0 junk (fmtInt (-5) ++ ([' '] ++ (fmtInt 10 ++ [])))).stdout =
        fmtInt (wrap32 (-5 + 10)) ++ '\n' :: more) ∧
      fmtInt (-5) ++ ([' '] ++ (fmtInt 10 ++ [])) = "-5 10".toList ∧
      fmtInt (wrap32 (-5 + 10)) = "5".toList :=
  ⟨(sum_line_first (-5) 10 (by decide) (by decide) [' '] [] (by decide) (by decide) rfl
      0 0 junk).1, by decide, by decide⟩

/-! ## The token -/

/-- C2, as stated, fails on a token that holds a NUL character: on the input `1 2\na\0b\n` the
token `a\0b` has three characters, none of them white space, and the program prints `a`, not the
three characters in reverse order. -/
theorem nul_token_not_reversed :
    (∀ c ∈ ['a', NUL, 'b'], isSpace c = false) ∧
      main 0 0 junk (fmtInt 1 ++ ([' '] ++ (fmtInt 2 ++ (['\n'] ++ (['a', NUL, 'b'] ++ ['\n']))))) =
        ⟨"3\na\n".toList, [], Status.exited⟩ ∧
      "3\na\n".toList ≠ sumLine 1 2 ++ ['a', NUL, 'b'].reverse ++ ['\n'] := by
  decide

/-- C2, amended: for two integers, white space, a token `t` of 1 to 9 characters that are neither
white space nor NUL, and then only white space up to the end of the input, standard output is the
sum line followed by `t` reversed and a newline, and standard error stays empty. -/
theorem short_token_reversed (a b : Int) (w1 w2 t w3 : List Char)
    (hw1 : ∀ c ∈ w1, isSpace c = true) (hn1 : w1 ≠ [])
    (hw2 : ∀ c ∈ w2, isSpace c = true) (hn2 : w2 ≠ [])
    (ht : ∀ c ∈ t, isSpace c = false ∧ c ≠ NUL) (h1 : 1 ≤ t.length) (h9 : t.length ≤ 9)
    (hw3 : ∀ c ∈ w3, isSpace c = true) (a0 b0 : Int) (s0 : List Char) :
    main a0 b0 s0 (fmtInt a ++ (w1 ++ (fmtInt b ++ (w2 ++ (t ++ w3))))) =
        ⟨sumLine a b ++ t.reverse ++ ['\n'], [], Status.exited⟩ ∧
      ((-2147483648 ≤ a ∧ a ≤ 2147483647) ∧ (-2147483648 ≤ b ∧ b ≤ 2147483647) →
        sumLine a b = fmtInt (wrap32 (a + b)) ++ ['\n']) := by
  refine ⟨?_, fun h => sumLine_of_fits a b h.1 h.2⟩
  have hne : t ≠ [] := by
    intro h
    rw [h] at h1
    simp at h1
  have hend : tokenEnds w3 = true := by
    cases w3 with
    | nil => rfl
    | cons c cs => exact hw3 c (List.mem_cons_self _ _)
  have hall : w3.all isSpace = true := List.all_eq_true.2 hw3
  rw [main_short a0 b0 a b s0 w1 w2 t w3 hw1 hn1 hw2 hn2 (fun c hc => (ht c hc).1) hne h9 hend,
    if_pos hall, cstr_of_no_nul t (fun c hc => (ht c hc).2)]

/-- C2 amended, at the inputs `"3 4\nabc\n"` and `"-5 10\nz\n"` of the specification. -/
theorem short_token_reversed_witness :
    (main 0 0 junk (fmtInt 3 ++ ([' '] ++ (fmtInt 4 ++ (['\n'] ++ ("abc".toList ++ ['\n']))))) =
        ⟨sumLine 3 4 ++ "abc".toList.reverse ++ ['\n'], [], Status.exited⟩) ∧
      (main 0 0 junk (fmtInt (-5) ++ ([' '] ++ (fmtInt 10 ++ (['\n'] ++ (['z'] ++ ['\n']))))) =
        ⟨sumLine (-5) 10 ++ ['z'].reverse ++ ['\n'], [], Status.exited⟩) ∧
      fmtInt 3 ++ ([' '] ++ (fmtInt 4 ++ (['\n'] ++ ("abc".toList ++ ['\n'])))) =
        "3 4\nabc\n".toList ∧
      sumLine 3 4 ++ "abc".toList.reverse ++ ['\n'] = "7\ncba\n".toList ∧
      fmtInt (-5) ++ ([' '] ++ (fmtInt 10 ++ (['\n'] ++ (['z'] ++ ['\n'])))) =
        "-5 10\nz\n".toList ∧
      sumLine (-5) 10 ++ ['z'].reverse ++ ['\n'] = "5\nz\n".toList :=
  ⟨(short_token_reversed 3 4 [' '] ['\n'] "abc".toList ['\n'] (by decide) (by decide)
      (by decide) (by decide) (by decide) (by decide) (by decide) (by decide) 0 0 junk).1,
    (short_token_reversed (-5) 10 [' '] ['\n'] ['z'] ['\n'] (by decide) (by decide)
      (by decide) (by decide) (by decide) (by decide) (by decide) (by decide) 0 0 junk).1,
    by decide, by decide, by decide, by decide⟩

/-- C3: for two integers, white space and a token of more than 9 characters that are not white
space, whatever follows, standard error is exactly the diagnostic and standard output is the sum
line alone. -/
theorem long_token_diagnostic (a b : Int) (w1 w2 t tail : List Char)
    (hw1 : ∀ c ∈ w1, isSpace c = true) (hn1 : w1 ≠ [])
    (hw2 : ∀ c ∈ w2, isSpace c = true) (hn2 : w2 ≠ [])
    (ht : ∀ c ∈ t, isSpace c = false) (hl : 9 < t.length) (a0 b0 : Int) (s0 : List Char) :
    (main a0 b0 s0 (fmtInt a ++ (w1 ++ (fmtInt b ++ (w2 ++ (t ++ tail)))))).stderr =
        "String is too long\n".toList ∧
      (main a0 b0 s0 (fmtInt a ++ (w1 ++ (fmtInt b ++ (w2 ++ (t ++ tail)))))).stdout =
        sumLine a b ∧
      ((-2147483648 ≤ a ∧ a ≤ 2147483647) ∧ (-2147483648 ≤ b ∧ b ≤ 2147483647) →
        sumLine a b = fmtInt (wrap32 (a + b)) ++ ['\n']) := by
  rw [main_long a0 b0 a b s0 w1 w2 t tail hw1 hn1 hw2 hn2 ht hl]
  exact ⟨rfl, rfl, fun h => sumLine_of_fits a b h.1 h.2⟩

/-- C3 at the input `"1 2\nabcdefghij\n"` of the specification. -/
theorem long_token_diagnostic_witness :
    (main 0 0 junk (fmtInt 1 ++ ([' '] ++ (fmtInt 2 ++ (['\n'] ++
        ("abcdefghij".toList ++ ['\n']))))) ).stderr = "String is too long\n".toList ∧
      (main 0 0 junk (fmtInt 1 ++ ([' '] ++ (fmtInt 2 ++ (['\n'] ++
        ("abcdefghij".toList ++ ['\n']))))) ).stdout = sumLine 1 2 ∧
      fmtInt 1 ++ ([' '] ++ (fmtInt 2 ++ (['\n'] ++ ("abcdefghij".toList ++ ['\n'])))) =
        "1 2\nabcdefghij\n".toList ∧
      sumLine 1 2 = "3\n".toList :=
  ⟨(long_token_diagnostic 1 2 [' '] ['\n'] "abcdefghij".toList ['\n'] (by decide) (by decide)
      (by decide) (by decide) (by decide) (by decide) 0 0 junk).1,
    (long_token_diagnostic 1 2 [' '] ['\n'] "abcdefghij".toList ['\n'] (by decide) (by decide)
      (by decide) (by decide) (by decide) (by decide) 0 0 junk).2.1,
    by decide, by decide⟩

/-! ## The reversal routine -/

/-- C4: the swap loop over the first `len` characters of the buffer is an involution: it returns,
reverses those characters, and run again on its result it gives back the original buffer. -/
theorem reverse_involution (s : List Char) (len : Nat) (h : len ≤ s.length) :
    ∃ r, reverse s (len : Int) = some r ∧ r.take len = (s.take len).reverse ∧
      reverse r (len : Int) = some s := by
  have hl : ((s.take len).reverse).length = len := by
    simp only [List.length_reverse, List.length_take]
    omega
  have e1 : ((s.take len).reverse ++ s.drop len).take len = (s.take len).reverse :=
    List.take_left' hl
  have e2 : ((s.take len).reverse ++ s.drop len).drop len = s.drop len :=
    List.drop_left' hl
  have hr : len ≤ ((s.take len).reverse ++ s.drop len).length := by
    simp only [List.length_append, List.length_reverse, List.length_take, List.length_drop]
    omega
  refine ⟨_, reverse_eq s len h, e1, ?_⟩
  rw [reverse_eq _ len hr, e1, e2, List.reverse_reverse, List.take_append_drop]

/-- C4 on the buffer holding `abc`: reversed to `cba`, and back. -/
theorem reverse_involution_witness :
    ∃ r, reverse ("abc".toList ++ NUL :: "??????".toList) ((3 : Nat) : Int) = some r ∧
      r.take 3 = (("abc".toList ++ NUL :: "??????".toList).take 3).reverse ∧
      reverse r ((3 : Nat) : Int) = some ("abc".toList ++ NUL :: "??????".toList) :=
  reverse_involution ("abc".toList ++ NUL :: "??????".toList) 3 (by decide)

/-- C7: for every buffer `s` and every `len` from 0 to the size of the buffer, the swap loop
returns a buffer of the same size with `len - 1 - i` moved to `i` for every `i < len`, so that
its first `len` characters are those of `s` reversed; every position from `len` on is unchanged;
and for odd `len` no iteration writes the middle position. -/
theorem reverse_spec (s : List Char) (len : Int) (h0 : 0 ≤ len) (h : len ≤ s.length) :
    ∃ r, reverse s len = some r ∧ r.length = s.length ∧
      (∀ i : Nat, (i : Int) < len → r[i]? = s[len.toNat - 1 - i]?) ∧
      (∀ j : Nat, len ≤ (j : Int) → r[j]? = s[j]?) ∧
      r.take len.toNat = (s.take len.toNat).reverse ∧
      r.drop len.toNat = s.drop len.toNat ∧
      (len % 2 = 1 → ∀ (t t1 : List Char) (i : Int), 0 ≤ i → i < Int.tdiv len 2 →
        swapStep t len i = some t1 → t1[(Int.tdiv len 2).toNat]? = t[(Int.tdiv len 2).toNat]?) := by
  obtain ⟨n, rfl⟩ := Int.eq_ofNat_of_zero_le h0
  have hn : n ≤ s.length := by omega
  have hl : ((s.take n).reverse).length = n := by
    simp only [List.length_reverse, List.length_take]
    omega
  refine ⟨_, reverse_eq s n hn, ?_, ?_, ?_, ?_, ?_, ?_⟩
  · simp only [List.length_append, List.length_reverse, List.length_take, List.length_drop]
    omega
  · intro i hi
    have hi2 : i < n := by omega
    have hl2 : (s.take n).length = n := by
      simp only [List.length_take]
      omega
    rw [Int.toNat_ofNat, List.getElem?_append_left (by omega),
      List.getElem?_reverse (by omega), hl2, List.getElem?_take_of_lt (by omega)]
  · intro j hj
    have hj2 : n ≤ j := by omega
    rw [List.getElem?_append_right (by omega), hl, List.getElem?_drop]
    congr 1
    omega
  · rw [Int.toNat_ofNat]
    exact List.take_left' hl
  · rw [Int.toNat_ofNat]
    exact List.drop_left' hl
  · intro hodd t t1 i hi0 hi hstep
    rw [tdiv_two_natCast] at hi ⊢
    rw [Int.toNat_ofNat]
    exact swapStep_other t t1 _ i hstep (n / 2) (by omega) (by omega)

/-- C7 on a ten-byte buffer with `len = 5`. -/
theorem reverse_spec_witness :
    ∃ r, reverse "abcde?????".toList 5 = some r ∧ r.length = "abcde?????".toList.length ∧
      (∀ i : Nat, (i : Int) < 5 → r[i]? = "abcde?????".toList[(5 : Int).toNat - 1 - i]?) ∧
      (∀ j : Nat, (5 : Int) ≤ (j : Int) → r[j]? = "abcde?????".toList[j]?) ∧
      r.take (5 : Int).toNat = ("abcde?????".toList.take (5 : Int).toNat).reverse ∧
      r.drop (5 : Int).toNat = "abcde?????".toList.drop (5 : Int).toNat ∧
      ((5 : Int) % 2 = 1 → ∀ (t t1 : List Char) (i : Int), 0 ≤ i → i < Int.tdiv 5 2 →
        swapStep t 5 i = some t1 → t1[(Int.tdiv 5 2).toNat]? = t[(Int.tdiv 5 2).toNat]?) :=
  reverse_spec "abcde?????".toList 5 (by decide) (by decide)

/-- C10: with a buffer of ten bytes, `0 ≤ len ≤ 9` and a loop index `0 ≤ i < len / 2`, both `i`
and `len - i - 1` lie in `[0, len)` and `i < len - i - 1`; the three accesses of the loop body
are inside the array, the body returns a buffer of ten bytes whose position `len` (the
terminator) is unchanged, and the whole loop returns. -/
theorem reverse_in_bounds (s : List Char) (len i : Int) (hs : s.length = 10)
    (h0 : 0 ≤ len) (h9 : len ≤ 9) (hi0 : 0 ≤ i) (hi : i < Int.tdiv len 2) :
    (0 ≤ i ∧ i < len) ∧ (0 ≤ len - i - 1 ∧ len - i - 1 < len) ∧ i < len - i - 1 ∧
      (∃ c, readAt s i = some c) ∧ (∃ c, readAt s (len - i - 1) = some c) ∧
      (∀ c, ∃ s1, writeAt s i c = some s1) ∧ (∀ c, ∃ s1, writeAt s (len - i - 1) c = some s1) ∧
      (∃ s1, swapStep s len i = some s1 ∧ s1.length = 10 ∧ s1[len.toNat]? = s[len.toNat]?) ∧
      (∃ r, reverse s len = some r) := by
  have hi2 : i < len / 2 := by
    rw [Int.tdiv_eq_ediv h0 (by decide)] at hi
    exact hi
  have b1 : 0 ≤ i ∧ i < (s.length : Int) := by omega
  have b2 : 0 ≤ len - i - 1 ∧ len - i - 1 < (s.length : Int) := by omega
  have g1 : i.toNat < s.length := by omega
  have g2 : (len - i - 1).toNat < s.length := by omega
  obtain ⟨s1, hs1⟩ := swapStep_isSome s len i hi0 hi (by omega)
  obtain ⟨n, rfl⟩ := Int.eq_ofNat_of_zero_le h0
  refine ⟨by omega, by omega, by omega, ?_, ?_, ?_, ?_, ?_, ?_⟩
  · exact ⟨s[i.toNat], by simp only [readAt, b1, and_self, if_true, List.getElem?_eq_getElem g1]⟩
  · exact ⟨s[((n : Int) - i - 1).toNat],
      by simp only [readAt, b2, and_self, if_true, List.getElem?_eq_getElem g2]⟩
  · intro c
    exact ⟨s.set i.toNat c, by simp only [writeAt, b1, and_self, if_true]⟩
  · intro c
    exact ⟨s.set ((n : Int) - i - 1).toNat c, by simp only [writeAt, b2, and_self, if_true]⟩
  · refine ⟨s1, hs1, ?_, ?_⟩
    · rw [swapStep_length s s1 _ i hs1, hs]
    · rw [Int.toNat_ofNat]
      exact swapStep_other s s1 _ i hs1 n (by omega) (by omega)
  · exact ⟨_, reverse_eq s n (by omega)⟩

/-- C10 on a ten-byte buffer with `len = 9` and `i = 3`. -/
theorem reverse_in_bounds_witness :
    ((0 : Int) ≤ 3 ∧ (3 : Int) < 9) ∧ ((0 : Int) ≤ 9 - 3 - 1 ∧ (9 : Int) - 3 - 1 < 9) ∧
      (3 : Int) < 9 - 3 - 1 ∧
      (∃ c, readAt junk 3 = some c) ∧ (∃ c, readAt junk (9 - 3 - 1) = some c) ∧
      (∀ c, ∃ s1, writeAt junk 3 c = some s1) ∧ (∀ c, ∃ s1, writeAt junk (9 - 3 - 1) c = some s1) ∧
      (∃ s1, swapStep junk 9 3 = some s1 ∧ s1.length = 10 ∧
        s1[(9 : Int).toNat]? = junk[(9 : Int).toNat]?) ∧
      (∃ r, reverse junk 9 = some r) :=
  reverse_in_bounds junk 9 3 (by decide) (by decide) (by decide) (by decide) (by decide)

/-! ## Truncation and the end of the input -/

theorem skipSpaceAux_all (w : List Char) (e : Bool) (hw : ∀ c ∈ w, isSpace c = true) :
    skipSpaceAux w e = ⟨[], true⟩ := by
  have h := skipSpaceAux_append w [] e hw
  rw [List.append_nil] at h
  rw [h]
  rfl

/-- C5, as stated, fails: on `1 2\nabcdefghij\nxyz\n` the token has ten characters and is
followed by a newline and another line, and the program prints the diagnostic and no reversed
token. -/
theorem truncation_is_detected :
    (∀ c ∈ "abcdefghij".toList, isSpace c = false) ∧ 9 < "abcdefghij".toList.length ∧
      fmtInt 1 ++ ([' '] ++ (fmtInt 2 ++ (['\n'] ++ ("abcdefghij".toList ++ "\nxyz\n".toList)))) =
        "1 2\nabcdefghij\nxyz\n".toList ∧
      main 0 0 junk "1 2\nabcdefghij\nxyz\n".toList =
        ⟨"3\n".toList, "String is too long\n".toList, Status.exited⟩ := by
  decide

/-- C5, amended: when the token has more than 9 characters that are not white space and more
input follows it, the truncation is detected: after the token read the rest of the token and
what follows are still unread and the end of the input has not been reached, so the program
prints the diagnostic, and standard output holds the sum line and no reversed token. -/
theorem long_token_followed (a b : Int) (w1 w2 t tail : List Char)
    (hw1 : ∀ c ∈ w1, isSpace c = true) (hn1 : w1 ≠ [])
    (hw2 : ∀ c ∈ w2, isSpace c = true) (hn2 : w2 ≠ [])
    (ht : ∀ c ∈ t, isSpace c = false) (hl : 9 < t.length) (_hmore : tail ≠ [])
    (a0 b0 : Int) (s0 : List Char) :
    (afterReads a0 b0 s0 (fmtInt a ++ (w1 ++ (fmtInt b ++ (w2 ++ (t ++ tail)))))).2.2.2 =
        ⟨t.drop 9 ++ tail, false⟩ ∧
      main a0 b0 s0 (fmtInt a ++ (w1 ++ (fmtInt b ++ (w2 ++ (t ++ tail))))) =
        ⟨sumLine a b, "String is too long\n".toList, Status.exited⟩ := by
  rw [afterReads_long a0 b0 a b s0 w1 w2 t tail hw1 hn1 hw2 hn2 ht hl,
    main_long a0 b0 a b s0 w1 w2 t tail hw1 hn1 hw2 hn2 ht hl]
  exact ⟨rfl, rfl⟩

/-- C5 amended, at the input `"1 2\nabcdefghij\nxyz\n"`. -/
theorem long_token_followed_witness :
    (afterReads 0 0 junk (fmtInt 1 ++ ([' '] ++ (fmtInt 2 ++ (['\n'] ++
        ("abcdefghij".toList ++ "\nxyz\n".toList)))))).2.2.2 =
        ⟨"abcdefghij".toList.drop 9 ++ "\nxyz\n".toList, false⟩ ∧
      main 0 0 junk (fmtInt 1 ++ ([' '] ++ (fmtInt 2 ++ (['\n'] ++
        ("abcdefghij".toList ++ "\nxyz\n".toList))))) =
        ⟨sumLine 1 2, "String is too long\n".toList, Status.exited⟩ :=
  long_token_followed 1 2 [' '] ['\n'] "abcdefghij".toList "\nxyz\n".toList (by decide)
    (by decide) (by decide) (by decide) (by decide) (by decide) (by decide) 0 0 junk

/-- C6, as stated, fails on a token that starts with a NUL character: on `1 2\n\0ab\n` the token
`\0ab` has three characters, none of them white space, and the computed length is 0. -/
theorem nul_token_length_zero :
    (∀ c ∈ [NUL, 'a', 'b'], isSpace c = false) ∧
      (afterReads 0 0 junk (fmtInt 1 ++ ([' '] ++ (fmtInt 2 ++ (['\n'] ++
        ([NUL, 'a', 'b'] ++ ['\n'])))))).2.2.1 = [NUL, 'a', 'b'] ++ NUL :: "??????".toList ∧
      strlen (afterReads 0 0 junk (fmtInt 1 ++ ([' '] ++ (fmtInt 2 ++ (['\n'] ++
        ([NUL, 'a', 'b'] ++ ['\n'])))))).2.2.1 = some 0 := by
  decide

/-- C6, amended: for two integers and a token `t`, the token read stores exactly the first
`min 9 |t|` characters of `t` followed by a terminator; the computed length is at most 9, and
it is `min 9 |t|`, hence at least 1, when none of the stored characters is NUL; the characters
of `t` beyond the ninth are not stored and are the next characters of the input stream. -/
theorem token_read_bounded (a b : Int) (w1 w2 t tail : List Char)
    (hw1 : ∀ c ∈ w1, isSpace c = true) (hn1 : w1 ≠ [])
    (hw2 : ∀ c ∈ w2, isSpace c = true) (hn2 : w2 ≠ [])
    (ht : ∀ c ∈ t, isSpace c = false) (hne : t ≠ []) (hend : tokenEnds tail = true)
    (a0 b0 : Int) (s0 : List Char) :
    (afterReads a0 b0 s0 (fmtInt a ++ (w1 ++ (fmtInt b ++ (w2 ++ (t ++ tail)))))).2.2.1 =
        t.take (min 9 t.length) ++ NUL :: s0.drop (min 9 t.length + 1) ∧
      (∃ len, strlen (afterReads a0 b0 s0
          (fmtInt a ++ (w1 ++ (fmtInt b ++ (w2 ++ (t ++ tail)))))).2.2.1 = some len ∧
        len ≤ 9 ∧
        ((∀ c ∈ t.take (min 9 t.length), c ≠ NUL) → len = min 9 t.length ∧ 1 ≤ len)) ∧
      (9 < t.length →
        (afterReads a0 b0 s0 (fmtInt a ++ (w1 ++ (fmtInt b ++ (w2 ++ (t ++ tail)))))).2.2.2.rest =
          t.drop 9 ++ tail) := by
  have hpos : 0 < t.length := List.length_pos.2 hne
  have key : (afterReads a0 b0 s0 (fmtInt a ++ (w1 ++ (fmtInt b ++ (w2 ++ (t ++ tail)))))).2.2.1 =
      t.take (min 9 t.length) ++ NUL :: s0.drop (min 9 t.length + 1) := by
    by_cases hl : t.length ≤ 9
    · rw [afterReads_short a0 b0 a b s0 w1 w2 t tail hw1 hn1 hw2 hn2 ht hne hl hend,
        Nat.min_eq_right hl, List.take_length]
      rfl
    · rw [afterReads_long a0 b0 a b s0 w1 w2 t tail hw1 hn1 hw2 hn2 ht (by omega),
        Nat.min_eq_left (by omega)]
      show t.take 9 ++ NUL :: s0.drop ((t.take 9).length + 1) = _
      rw [List.length_take, Nat.min_eq_left (by omega)]
  have hlen : (t.take (min 9 t.length)).length = min 9 t.length := by
    rw [List.length_take]
    omega
  refine ⟨key, ?_, ?_⟩
  · rw [key]
    refine ⟨_, strlen_append_nul _ _, ?_, ?_⟩
    · have h1 : (cstr (t.take (min 9 t.length))).length ≤ (t.take (min 9 t.length)).length :=
        (List.takeWhile_sublist _).length_le
      omega
    · intro hnul
      rw [cstr_of_no_nul _ hnul, hlen]
      omega
  · intro hl
    rw [afterReads_long a0 b0 a b s0 w1 w2 t tail hw1 hn1 hw2 hn2 ht hl]

/-- C6 amended, at the input `"1 2\nabcdefghij\n"`. -/
theorem token_read_bounded_witness :
    (afterReads 0 0 junk (fmtInt 1 ++ ([' '] ++ (fmtInt 2 ++ (['\n'] ++
        ("abcdefghij".toList ++ ['\n'])))))).2.2.1 =
        "abcdefghij".toList.take (min 9 "abcdefghij".toList.length) ++
          NUL :: junk.drop (min 9 "abcdefghij".toList.length + 1) ∧
      "abcdefghij".toList.take (min 9 "abcdefghij".toList.length) = "abcdefghi".toList :=
  ⟨(token_read_bounded 1 2 [' '] ['\n'] "abcdefghij".toList ['\n'] (by decide) (by decide)
      (by decide) (by decide) (by decide) (by decide) (by decide) 0 0 junk).1, by decide⟩

/-- C8: for two integers and a token `t`, when the end of the input has been reached after the
token read (the `feof` branch is taken), `t` has at most 9 characters, the buffer holds all of
`t` followed by the terminator, every input character after `t` is white space, nothing is left
unread, and the program writes no diagnostic. -/
theorem eof_means_complete (a b : Int) (w1 w2 t tail : List Char)
    (hw1 : ∀ c ∈ w1, isSpace c = true) (hn1 : w1 ≠ [])
    (hw2 : ∀ c ∈ w2, isSpace c = true) (hn2 : w2 ≠ [])
    (ht : ∀ c ∈ t, isSpace c = false) (hne : t ≠ []) (hend : tokenEnds tail = true)
    (a0 b0 : Int) (s0 : List Char)
    (heof : (afterReads a0 b0 s0
      (fmtInt a ++ (w1 ++ (fmtInt b ++ (w2 ++ (t ++ tail)))))).2.2.2.eof = true) :
    t.length ≤ 9 ∧
      (afterReads a0 b0 s0 (fmtInt a ++ (w1 ++ (fmtInt b ++ (w2 ++ (t ++ tail)))))).2.2.1 =
        t ++ NUL :: s0.drop (t.length + 1) ∧
      (∀ c ∈ tail, isSpace c = true) ∧
      (afterReads a0 b0 s0 (fmtInt a ++ (w1 ++ (fmtInt b ++ (w2 ++ (t ++ tail)))))).2.2.2.rest =
        [] ∧
      main a0 b0 s0 (fmtInt a ++ (w1 ++ (fmtInt b ++ (w2 ++ (t ++ tail))))) =
        ⟨sumLine a b ++ (cstr t).reverse ++ ['\n'], [], Status.exited⟩ := by
  by_cases hl : t.length ≤ 9
  · have hm := main_short a0 b0 a b s0 w1 w2 t tail hw1 hn1 hw2 hn2 ht hne hl hend
    rw [afterReads_short a0 b0 a b s0 w1 w2 t tail hw1 hn1 hw2 hn2 ht hne hl hend] at heof ⊢
    simp only [skipSpaceAux_eof] at heof
    have hall : ∀ c ∈ tail, isSpace c = true := List.all_eq_true.1 heof
    rw [if_pos heof] at hm
    refine ⟨hl, rfl, hall, ?_, hm⟩
    simp only [skipSpaceAux_all tail false hall]
  · rw [afterReads_long a0 b0 a b s0 w1 w2 t tail hw1 hn1 hw2 hn2 ht (by omega)] at heof
    exact absurd heof (by simp)

/-- C8 at the input `"3 4\nabc\n"`. -/
theorem eof_means_complete_witness :
    "abc".toList.length ≤ 9 ∧
      (afterReads 0 0 junk (fmtInt 3 ++ ([' '] ++ (fmtInt 4 ++ (['\n'] ++
        ("abc".toList ++ ['\n'])))))).2.2.1 =
        "abc".toList ++ NUL :: junk.drop ("abc".toList.length + 1) ∧
      (∀ c ∈ ['\n'], isSpace c = true) ∧
      (afterReads 0 0 junk (fmtInt 3 ++ ([' '] ++ (fmtInt 4 ++ (['\n'] ++
        ("abc".toList ++ ['\n'])))))).2.2.2.rest = [] ∧
      main 0 0 junk (fmtInt 3 ++ ([' '] ++ (fmtInt 4 ++ (['\n'] ++ ("abc".toList ++ ['\n']))))) =
        ⟨sumLine 3 4 ++ (cstr "abc".toList).reverse ++ ['\n'], [], Status.exited⟩ :=
  eof_means_complete 3 4 [' '] ['\n'] "abc".toList ['\n'] (by decide) (by decide) (by decide)
    (by decide) (by decide) (by decide) (by decide) 0 0 junk (by decide)

/-- C9: two inputs made of the same two integers and the same token, with the white space
between them replaced by other white space and with what follows the token equal up to the
replacement of every run of white space by another run of white space, give the same standard
output, the same standard error and the same end of the run. -/
theorem whitespace_insensitive (a b : Int) (w1 w2 v1 v2 t tail1 tail2 : List Char)
    (hw1 : ∀ c ∈ w1, isSpace c = true) (hn1 : w1 ≠ [])
    (hw2 : ∀ c ∈ w2, isSpace c = true) (hn2 : w2 ≠ [])
    (hv1 : ∀ c ∈ v1, isSpace c = true) (hm1 : v1 ≠ [])
    (hv2 : ∀ c ∈ v2, isSpace c = true) (hm2 : v2 ≠ [])
    (ht : ∀ c ∈ t, isSpace c = false) (hne : t ≠ []) (hend : tokenEnds tail1 = true)
    (htail : squeeze false tail1 = squeeze false tail2) (a0 b0 : Int) (s0 : List Char) :
    main a0 b0 s0 (fmtInt a ++ (w1 ++ (fmtInt b ++ (w2 ++ (t ++ tail1))))) =
      main a0 b0 s0 (fmtInt a ++ (v1 ++ (fmtInt b ++ (v2 ++ (t ++ tail2))))) := by
  by_cases hl : t.length ≤ 9
  · have hend2 : tokenEnds tail2 = true := by
      rw [← squeeze_tokenEnds tail1 tail2 htail]
      exact hend
    have hall : tail1.all isSpace = tail2.all isSpace := by
      rw [← squeeze_all tail1 false, ← squeeze_all tail2 false, htail]
    rw [main_short a0 b0 a b s0 w1 w2 t tail1 hw1 hn1 hw2 hn2 ht hne hl hend,
      main_short a0 b0 a b s0 v1 v2 t tail2 hv1 hm1 hv2 hm2 ht hne hl hend2, hall]
  · rw [main_long a0 b0 a b s0 w1 w2 t tail1 hw1 hn1 hw2 hn2 ht (by omega),
      main_long a0 b0 a b s0 v1 v2 t tail2 hv1 hm1 hv2 hm2 ht (by omega)]

/-- C9 at the inputs `"3 4\nabc\n"` and `"3\t\t4  \r\nabc \n\n"`. -/
theorem whitespace_insensitive_witness :
    main 0 0 junk (fmtInt 3 ++ ([' '] ++ (fmtInt 4 ++ (['\n'] ++ ("abc".toList ++ ['\n']))))) =
        main 0 0 junk (fmtInt 3 ++ (['\t', '\t'] ++ (fmtInt 4 ++ ("  \r\n".toList ++
          ("abc".toList ++ " \n\n".toList))))) ∧
      fmtInt 3 ++ (['\t', '\t'] ++ (fmtInt 4 ++ ("  \r\n".toList ++
          ("abc".toList ++ " \n\n".toList)))) = "3\t\t4  \r\nabc \n\n".toList :=
  ⟨whitespace_insensitive 3 4 [' '] ['\n'] ['\t', '\t'] "  \r\n".toList "abc".toList ['\n']
      " \n\n".toList (by decide) (by decide) (by decide) (by decide) (by decide) (by decide)
      (by decide) (by decide) (by decide) (by decide) (by decide) (by decide) 0 0 junk,
    by decide⟩

/-- C11: the diagnostic does not imply that the token was too long. On the input
`1 2\nabc def\n`, whatever the uninitialised variables hold, the token `abc` has three
characters and is stored whole, followed by the terminator, only `def\n` is left unread, and
yet the end of the input has not been reached: the program writes the diagnostic to standard
error and only the sum line, without a reversed token, to standard output. -/
theorem diagnostic_without_truncation (a0 b0 : Int) (s0 : List Char) :
    "abc".toList.length ≤ 9 ∧ (∀ c ∈ "abc".toList, isSpace c = false) ∧
      (afterReads a0 b0 s0 "1 2\nabc def\n".toList).2.2.1 =
        "abc".toList ++ NUL :: s0.drop 4 ∧
      (afterReads a0 b0 s0 "1 2\nabc def\n".toList).2.2.2 = ⟨"def\n".toList, false⟩ ∧
      main a0 b0 s0 "1 2\nabc def\n".toList =
        ⟨"3\n".toList, "String is too long\n".toList, Status.exited⟩ := by
  have hin : "1 2\nabc def\n".toList =
      fmtInt 1 ++ ([' '] ++ (fmtInt 2 ++ (['\n'] ++ ("abc".toList ++ " def\n".toList)))) := by
    decide
  have hsum : sumLine 1 2 = "3\n".toList := by decide
  have hall : ¬ (" def\n".toList.all isSpace = true) := by decide
  have ha := afterReads_short a0 b0 1 2 s0 [' '] ['\n'] "abc".toList " def\n".toList
    (by decide) (by decide) (by decide) (by decide) (by decide) (by decide) (by decide)
    (by decide)
  have hm := main_short a0 b0 1 2 s0 [' '] ['\n'] "abc".toList " def\n".toList
    (by decide) (by decide) (by decide) (by decide) (by decide) (by decide) (by decide)
    (by decide)
  rw [if_neg hall, hsum] at hm
  have hst : skipSpaceAux " def\n".toList false = ⟨"def\n".toList, false⟩ := by decide
  rw [hin, ha, hm, hst]
  exact ⟨by decide, by decide, rfl, rfl, rfl⟩

end Foo
